import Mathlib

/-!
Verification development for the Nuke `collect_files.py` file-collection engine.

The Python source (`FileCollector` in `src/collect_files.py`) is shallowly
embedded below.  Paths and filenames are modelled as `List Char`; the POSIX
`os.path` helpers that the source calls (`basename`, `dirname`, `join`,
`normpath`, `splitext`) are translated from their CPython definitions.  The
regular-expression operations `re.search(r'(%0?\x5cd*d|#+)', s)`,
`re.search(r'\x5cd+', tok)` and `re.sub(pattern, rep, s)` are embedded as
structurally recursive scanners with the leftmost / greedy / non-overlapping
semantics of the `re` module on these particular patterns.

Effectful parts are embedded as explicit state:
* `EngineState` records, in dispatch order, every copy job handed to
  `copy_file` (inline single-file copies and pooled sequence submissions),
  every `os.makedirs` call, the number of `task.isCancelled()` polls made so
  far, and the `self.cancelled` flag.
* the cancellation signal is a function `sig : Nat → Bool` giving the value
  returned by the n-th `isCancelled()` poll;
* the filesystem behaviour seen by `shutil.copy2` / `os.path.exists` is a
  record `FS`; exceptions raised by `copy2` are modelled as an error value,
  and the `try`/`except` of `copy_file` as a total function into `Outcome`.

UI-only calls (`tprint`, `setProgress`, `setMessage`), the input panel, the
gizmo-to-group graph rewrite and `scriptSaveAs` (host collaborators, out of
scope per the specification) are not modelled beyond a `scriptSaved` flag.
-/

/-! ## Decimal digits, `str(n)` and `str.zfill` -/

/-- Value of a decimal digit string, `int(s)` on digit-only strings
(also the fold CPython uses); non-digit characters never reach it. -/
def digitsToNat (l : List Char) : Nat :=
  l.foldl (fun a c => a * 10 + (c.toNat - 48)) 0

/-- `str(n)` for a natural number, with explicit fuel so that it is
structurally recursive (any fuel above the digit count is enough). -/
def natStrF : Nat → Nat → List Char
  | 0, _ => []
  | fuel + 1, n =>
    if n < 10 then [Nat.digitChar n]
    else natStrF fuel (n / 10) ++ [Nat.digitChar (n % 10)]

/-- `str(n)` for a natural number. -/
def natStr (n : Nat) : List Char := natStrF (n + 1) n

/-- Python `str(i)` for an integer. -/
def intStr (i : Int) : List Char :=
  if i < 0 then '-' :: natStr i.natAbs else natStr i.toNat

/-- Python `s.zfill(w)`: left-pad with `'0'` to length `w`, keeping a
leading sign character in front of the inserted zeros. -/
def zfill (s : List Char) (w : Nat) : List Char :=
  if w ≤ s.length then s
  else if s.head? = some '-' ∨ s.head? = some '+' then
    s.take 1 ++ List.replicate (w - s.length) '0' ++ s.drop 1
  else List.replicate (w - s.length) '0' ++ s

/-- Read an optionally `'-'`-signed decimal string back to an integer;
left inverse of `zfill (intStr i) w`, used to prove injectivity. -/
def parseIntL (l : List Char) : Int :=
  if l.head? = some '-' then -(digitsToNat l.tail : Int)
  else (digitsToNat l : Int)

/-! ## POSIX path helpers (`os.path` on a POSIX host) -/

/-- `os.path.basename`: everything after the last `'/'`. -/
def basenameL (p : List Char) : List Char :=
  (p.reverse.takeWhile (fun c => c ≠ '/')).reverse

/-- `os.path.dirname`: everything before the last `'/'`, with trailing
slashes stripped unless the head is all slashes. -/
def dirnameL (p : List Char) : List Char :=
  let head := (p.reverse.dropWhile (fun c => c ≠ '/')).reverse
  if head.all (fun c => c = '/') then head
  else (head.reverse.dropWhile (fun c => c = '/')).reverse

/-- `posixpath.join` for two components. -/
def joinL (a b : List Char) : List Char :=
  if b.head? = some '/' then b
  else if a = [] ∨ a.getLast? = some '/' then a ++ b
  else a ++ '/' :: b

/-- Split on `'/'`, as `str.split('/')` does (empty parts kept). -/
def splitOnSlash : List Char → List (List Char)
  | [] => [[]]
  | '/' :: rest => [] :: splitOnSlash rest
  | c :: rest =>
    match splitOnSlash rest with
    | [] => [[c]]
    | g :: gs => (c :: g) :: gs

/-- `'/'.join(comps)`. -/
def joinComps : List (List Char) → List Char
  | [] => []
  | [c] => c
  | c :: cs => c ++ '/' :: joinComps cs

/-- One step of the component filter inside `posixpath.normpath`. -/
def normStep (initSlashes : Nat) (acc : List (List Char)) (comp : List Char) :
    List (List Char) :=
  if comp = [] ∨ comp = ['.'] then acc
  else if comp ≠ ['.', '.'] ∨ (initSlashes = 0 ∧ acc = []) ∨
      acc.getLast? = some ['.', '.'] then acc ++ [comp]
  else if acc ≠ [] then acc.dropLast
  else acc

/-- `posixpath.normpath`, as called by `copy_file` on both paths. -/
def normpath (p : List Char) : List Char :=
  if p = [] then ['.']
  else
    let initSlashes : Nat :=
      if p.take 2 = ['/', '/'] ∧ p.take 3 ≠ ['/', '/', '/'] then 2
      else if p.head? = some '/' then 1 else 0
    let comps := (splitOnSlash p).foldl (normStep initSlashes) []
    let res := List.replicate initSlashes '/' ++ joinComps comps
    if res = [] then ['.'] else res

/-- The extension part of `os.path.splitext(p)`, dot included (CPython
`genericpath._splitext`): the last `'.'` of the final path component
starts the extension unless only dots precede it in that component. -/
def splitextExt (p : List Char) : List Char :=
  let tail := basenameL p
  if tail.elem '.' then
    let revTail := tail.reverse
    let afterDot := (revTail.takeWhile (fun c => c ≠ '.')).reverse
    let beforeDot := ((revTail.dropWhile (fun c => c ≠ '.')).drop 1).reverse
    if beforeDot.any (fun c => c ≠ '.') then '.' :: afterDot else []
  else []

/-- `os.path.splitext(p)[-1][1:].lower()`, the extension string the
collector classifies on. -/
def extLower (p : List Char) : List Char :=
  ((splitextExt p).drop 1).map Char.toLower

/-! ## The padding token scanner, `re.search(r'(%0?\x5cd*d|#+)', s)`

On this alternation, `re.search` returns the leftmost position where a
branch matches; at a given position the printf branch `%0?\x5cd*d` matches
iff a (possibly empty) digit run after `'%'` is followed by `'d'` (the
branches start with distinct characters, so their order never matters),
and `#+` greedily takes the whole hash run. -/

/-- Length of the maximal digit run at the head of the list. -/
def digitRunLen : List Char → Nat
  | [] => 0
  | c :: rest => if c.isDigit then digitRunLen rest + 1 else 0

/-- Match of the branch `%0?\x5cd*d` anchored at the head of `l`:
`some (token, rest)` on success. -/
def percentTokAt (l : List Char) : Option (List Char × List Char) :=
  match l with
  | [] => none
  | c :: rest =>
    if c = '%' then
      let n := digitRunLen rest
      if (rest.drop n).head? = some 'd' then
        some ('%' :: (rest.take n ++ ['d']), (rest.drop n).tail)
      else none
    else none

/-- `re.search(r'(%0?\x5cd*d|#+)', l)` returning `match.group(1)`:
`pad_token` in `copy_sequence_parallel`, `none` when the regex finds
no padding token. -/
def findPad : List Char → Option (List Char)
  | [] => none
  | c :: rest =>
    match percentTokAt (c :: rest) with
    | some (tok, _) => some tok
    | none =>
      if c = '#' then some ('#' :: rest.takeWhile (fun x => x = '#'))
      else findPad rest

/-- First maximal digit run of a list: `re.search(r'\x5cd+', tok)`,
returning `[]` when there is no digit. -/
def firstDigitRun (l : List Char) : List Char :=
  (l.dropWhile (fun c => !c.isDigit)).takeWhile Char.isDigit

/-- `pad_len` as computed from `pad_token`: for a printf token the integer
value of its first digit run (`1` when there is none, i.e. `%d`), for a
hash token the run length. -/
def padLenOf (tok : List Char) : Nat :=
  if tok.head? = some '%' then
    match firstDigitRun tok with
    | [] => 1
    | ds => digitsToNat ds
  else tok.length

/-! ## `re.sub` on the two replacement patterns

`re.sub(pattern, rep, s)` replaces every non-overlapping leftmost match.
Both substitutions are embedded as structurally recursive scanners.
For `%0?\x5cd*d` the scanner carries the pending state "saw `'%'` and the
digit run `ds` so far" (a failed printf attempt can only be re-entered at
another `'%'`, which the pending case handles explicitly). -/

/-- `re.sub(r'%0?\x5cd*d', rep, ·)` scanner; `pend = some ds` means a `'%'`
was read and `ds` is the reversed digit run read since. -/
def subPercAux (rep : List Char) : Option (List Char) → List Char → List Char
  | none, [] => []
  | some ds, [] => '%' :: ds.reverse
  | none, c :: rest =>
    if c = '%' then subPercAux rep (some []) rest
    else c :: subPercAux rep none rest
  | some ds, c :: rest =>
    if c = 'd' then rep ++ subPercAux rep none rest
    else if c.isDigit then subPercAux rep (some (c :: ds)) rest
    else if c = '%' then ('%' :: ds.reverse) ++ subPercAux rep (some []) rest
    else ('%' :: ds.reverse) ++ c :: subPercAux rep none rest

/-- `re.sub(r'%0?\x5cd*d', rep, s)`. -/
def subPercent (rep s : List Char) : List Char := subPercAux rep none s

/-- `re.sub(r'#+', rep, ·)` scanner; `inRun` means the previous character
was a `'#'` already replaced as part of the current run. -/
def subHashAux (rep : List Char) : Bool → List Char → List Char
  | _, [] => []
  | inRun, c :: rest =>
    if c = '#' then (if inRun then [] else rep) ++ subHashAux rep true rest
    else c :: subHashAux rep false rest

/-- `re.sub(r'#+', rep, s)`. -/
def subHashes (rep s : List Char) : List Char := subHashAux rep false s

/-- Number of matches the `%0?\x5cd*d` scanner replaces from a given state. -/
def percCnt : Option (List Char) → List Char → Nat
  | _, [] => 0
  | none, c :: rest =>
    if c = '%' then percCnt (some []) rest else percCnt none rest
  | some ds, c :: rest =>
    if c = 'd' then percCnt none rest + 1
    else if c.isDigit then percCnt (some (c :: ds)) rest
    else if c = '%' then percCnt (some []) rest
    else percCnt none rest

/-- Number of characters the `%0?\x5cd*d` scanner copies through verbatim. -/
def percResid : Option (List Char) → List Char → Nat
  | none, [] => 0
  | some ds, [] => ds.length + 1
  | none, c :: rest =>
    if c = '%' then percResid (some []) rest else percResid none rest + 1
  | some ds, c :: rest =>
    if c = 'd' then percResid none rest
    else if c.isDigit then percResid (some (c :: ds)) rest
    else if c = '%' then ds.length + 1 + percResid (some []) rest
    else ds.length + 1 + (percResid none rest + 1)

/-- Number of hash runs the `#+` scanner replaces from a given state. -/
def hashCnt : Bool → List Char → Nat
  | _, [] => 0
  | inRun, c :: rest =>
    if c = '#' then (if inRun then 0 else 1) + hashCnt true rest
    else hashCnt false rest

/-- Number of characters the `#+` scanner copies through verbatim. -/
def hashResid : Bool → List Char → Nat
  | _, [] => 0
  | _, c :: rest =>
    if c = '#' then hashResid true rest else hashResid false rest + 1

/-- Does a padding-token match start at the head of `l`?  Used to state
that `re.search` uses the leftmost occurrence. -/
def startsTok (l : List Char) : Bool :=
  (percentTokAt l).isSome || decide (l.head? = some '#')

/-- The token the alternation matches when anchored at the head of `l`
(meaningful when `startsTok l`). -/
def tokAt (l : List Char) : List Char :=
  match percentTokAt l with
  | some (t, _) => t
  | none => l.takeWhile (fun c => c = '#')

/-- `re.sub(pattern, frame_str, basename)` with the pattern selected from
the matched token, and `frame_str = str(frame).zfill(pad_len)`. -/
def renderName (tok : List Char) (frame : Int) (basename : List Char) :
    List Char :=
  let frameStr := zfill (intStr frame) (padLenOf tok)
  if tok.head? = some '%' then subPercent frameStr basename
  else subHashes frameStr basename

/-- Python `range(a, b)` over integers, as a list. -/
def intRange (a b : Int) : List Int :=
  (List.range (b - a).toNat).map (fun (j : Nat) => a + (j : Int))

/-! ## Copy primitive and outcomes (`FileCollector.copy_file`) -/

/-- Result of one copy attempt (the spec's `Outcome`). -/
inductive Outcome where
  | Copied : Outcome
  | SourceMissing : Outcome
  | Failed : List Char → Outcome
deriving DecidableEq

/-- Filesystem behaviour visible to `copy_file`: `pathExists` models
`os.path.exists`, and `copyErr src dst = some e` models `shutil.copy2`
raising exception `e` (`none` = the copy succeeds). -/
structure FS where
  pathExists : List Char → Bool
  copyErr : List Char → List Char → Option (List Char)

/-- `FileCollector.copy_file(src, dst)`: normalize both paths, check
existence, copy inside `try`.  The `except Exception` handler is embedded
by totality: every branch returns an `Outcome` instead of raising. -/
def copy_file (fs : FS) (src dst : List Char) : Outcome :=
  let src := normpath src
  let dst := normpath dst
  if fs.pathExists src then
    match fs.copyErr src dst with
    | none => Outcome.Copied
    | some e => Outcome.Failed e
  else Outcome.SourceMissing

/-! ## Engine state and the collection loop -/

/-- One copy dispatched to `copy_file`; `pooled` is true for sequence
frames submitted through the `ThreadPoolExecutor`, false for the inline
single-file calls. -/
structure CopyJob where
  src : List Char
  dst : List Char
  name : List Char
  pooled : Bool
deriving DecidableEq

/-- Mutable engine state threaded through `collect`: the number of
`task.isCancelled()` polls made so far, the `self.cancelled` flag, the
copy jobs dispatched so far in order, and the `os.makedirs` calls made. -/
structure EngineState where
  polls : Nat
  cancelled : Bool
  jobs : List CopyJob
  dirs : List (List Char)
deriving DecidableEq

/-- The submission loop of `copy_sequence_parallel`: before each task,
poll the cancel signal; if set, set `self.cancelled` and break (already
submitted jobs drain in `concurrent.futures.wait`), else submit. -/
def submitLoop (sig : Nat → Bool) : List CopyJob → EngineState → EngineState
  | [], st => st
  | j :: rest, st =>
    if sig st.polls then { st with polls := st.polls + 1, cancelled := true }
    else submitLoop sig rest
      { st with polls := st.polls + 1, jobs := st.jobs ++ [j] }

/-- The per-frame task list built by `copy_sequence_parallel` once a
padding token `tok` has been found in the basename. -/
def seqTasks (filePath outputDir tok : List Char) (first last : Int) :
    List CopyJob :=
  let basename := basenameL filePath
  let dirpath := dirnameL filePath
  let newDir := joinL outputDir (basenameL dirpath)
  (intRange first (last + 1)).map (fun f =>
    let name := renderName tok f basename
    { src := joinL dirpath name, dst := joinL newDir name,
      name := name, pooled := true })

/-- `FileCollector.copy_sequence_parallel`: create the destination
directory, search for a padding token (return with zero jobs when none),
else build the frame tasks and run the submission loop. -/
def copy_sequence_parallel (sig : Nat → Bool) (st : EngineState)
    (filePath outputDir : List Char) (first last : Int) : EngineState :=
  let basename := basenameL filePath
  let newDir := joinL outputDir (basenameL (dirnameL filePath))
  let st1 := { st with dirs := st.dirs ++ [newDir] }
  match findPad basename with
  | none => st1
  | some tok => submitLoop sig (seqTasks filePath outputDir tok first last) st1

/-- The attributes of a host node that `collect` reads: presence of the
`file` and `Render` knobs, the `file` value, and presence/values of the
`first`/`last` frame-range knobs. -/
structure Node where
  hasFile : Bool
  hasRender : Bool
  file : List Char
  hasFirst : Bool
  first : Int
  last : Int
deriving DecidableEq

/-- `self.video_exts`. -/
def video_exts : List (List Char) :=
  ["mov".data, "avi".data, "mp4".data, "mpeg".data, "mpg".data,
   "r3d".data, "mxf".data, "mkv".data, "flv".data, "webm".data]

/-- Record an inline `copy_file(file_path, dst)` call made directly by the
`collect` loop (no pool). -/
def inlineCopy (st : EngineState) (src dst : List Char) : EngineState :=
  { st with jobs := st.jobs ++
      [{ src := src, dst := dst, name := basenameL dst, pooled := false }] }

/-- The body of one iteration of the `collect` loop after the poll: skip
nodes without a `file` knob or with a `Render` knob or with an empty path,
classify by extension and frame range, and dispatch. -/
def processNode (sig : Nat → Bool) (footage : List Char) (node : Node)
    (st : EngineState) : EngineState :=
  if ¬node.hasFile ∨ node.hasRender then st
  else if node.file = [] then st
  else if extLower node.file ∈ video_exts then
    inlineCopy st node.file (joinL footage (basenameL node.file))
  else if node.hasFirst then
    if node.first = node.last then
      inlineCopy st node.file (joinL footage (basenameL node.file))
    else copy_sequence_parallel sig st node.file footage node.first node.last
  else inlineCopy st node.file (joinL footage (basenameL node.file))

/-- The `for i, node in enumerate(all_nodes)` loop of `collect`: poll the
cancel signal at the top of every iteration; if set, set `self.cancelled`
and break out of the whole loop, else process the node and continue. -/
def processNodes (sig : Nat → Bool) (footage : List Char) :
    List Node → EngineState → EngineState
  | [], st => st
  | node :: rest, st =>
    if sig st.polls then { st with polls := st.polls + 1, cancelled := true }
    else processNodes sig footage rest
      (processNode sig footage node { st with polls := st.polls + 1 })

/-- The literal Tcl path stem used by `update_node_path`. -/
def tclStem : List Char := "[file dirname [value root.name]]/footage/".data

/-- `FileCollector.update_node_path`: rewrite the node's `file` knob to
the new relative location (sequence nodes keep their parent directory as
a subfolder, single files and video containers do not). -/
def update_node_path (node : Node) : Node :=
  let filePath := node.file
  let basename := basenameL filePath
  let newPath :=
    if node.hasFirst ∧ node.first ≠ node.last ∧
        extLower filePath ∉ video_exts then
      tclStem ++ basenameL (dirnameL filePath) ++ '/' :: basename
    else tclStem ++ basename
  { node with file := newPath }

/-- Result of one `collect` run: the final engine state, the node list
after the (possibly skipped) path-rewriting post-pass, and whether
`scriptSaveAs` was reached. -/
structure RunResult where
  finalState : EngineState
  nodesAfter : List Node
  scriptSaved : Bool
deriving DecidableEq

/-- `FileCollector.collect` from the point where the output directory is
known and `footage` has been created (the panel, the pre-flight directory
dialog and the gizmo conversion are host collaborators outside the
engine): run the node loop, then — only when not cancelled — save the
script and rewrite every `file`-bearing, non-`Render` node's path. -/
def collect (sig : Nat → Bool) (target : List Char) (nodes : List Node) :
    RunResult :=
  let footage := joinL target "footage".data
  let st := processNodes sig footage nodes
    { polls := 0, cancelled := false, jobs := [], dirs := [footage] }
  if st.cancelled then
    { finalState := st, nodesAfter := nodes, scriptSaved := false }
  else
    { finalState := st
      nodesAfter := nodes.map (fun n =>
        if n.hasFile ∧ ¬n.hasRender then update_node_path n else n)
      scriptSaved := true }

/-- Outcomes of the dispatched jobs: each submitted or inline job runs
`copy_file` to completion independently of the others. -/
def runOutcomes (fs : FS) (jobs : List CopyJob) : List Outcome :=
  jobs.map (fun j => copy_file fs j.src j.dst)

/-- A `collect` run together with the per-job outcomes its copies
produced on filesystem `fs`. -/
def collectRun (fs : FS) (sig : Nat → Bool) (target : List Char)
    (nodes : List Node) : RunResult × List Outcome :=
  let r := collect sig target nodes
  (r, runOutcomes fs r.finalState.jobs)

/-- The footage directory of a run, `os.path.join(target_path, "footage")`. -/
def footageOf (target : List Char) : List Char := joinL target "footage".data

/-- The engine state at the top of the `collect` loop: no polls yet, not
cancelled, no jobs, and `footage` just created by `os.makedirs`. -/
def initState (target : List Char) : EngineState :=
  { polls := 0, cancelled := false, jobs := [],
    dirs := [footageOf target] }

/-- The run of the collect loop under a never-set cancellation signal: the
fully-collected reference trace. -/
def uncancelledRun (target : List Char) (nodes : List Node) : EngineState :=
  processNodes (fun _ => false) (footageOf target) nodes (initState target)

/-! ## Concrete fixtures used by the witness theorems -/

/-- Witness output root. -/
def wTarget : List Char := "/out".data

/-- Witness node: a single video-container file. -/
def wNodeA : Node :=
  { hasFile := true, hasRender := false, file := "/sh/clip.mov".data,
    hasFirst := false, first := 0, last := 0 }

/-- Witness node: a three-frame hash-padded sequence. -/
def wNodeB : Node :=
  { hasFile := true, hasRender := false, file := "/sh/p/plate.####.dpx".data,
    hasFirst := true, first := 1, last := 3 }

/-- Witness cancellation signal: set from the second poll onward. -/
def wSigAt1 : Nat → Bool := fun n => decide (1 ≤ n)

/-- Witness filesystem on which every copy succeeds. -/
def fsAllOk : FS := { pathExists := fun _ => true, copyErr := fun _ _ => none }

/-- Witness filesystem on which every source is missing. -/
def fsAllMissing : FS :=
  { pathExists := fun _ => false, copyErr := fun _ _ => none }

/-- Witness filesystem on which every copy raises. -/
def fsAllFail : FS :=
  { pathExists := fun _ => true, copyErr := fun _ _ => some "io error".data }

/-- Witness node: a single-frame (non-sequence) image file. -/
def wNodeC : Node :=
  { hasFile := true, hasRender := false, file := "/sh/s/still.exr".data,
    hasFirst := false, first := 0, last := 0 }

/-- Witness engine state with nothing recorded. -/
def wStateEmpty : EngineState :=
  { polls := 0, cancelled := false, jobs := [], dirs := [] }

/-! # Theorems

## Decimal rendering: `str(i).zfill(w)` is injective in `i` -/

theorem digitsToNat_append (l : List Char) (c : Char) :
    digitsToNat (l ++ [c]) = digitsToNat l * 10 + (c.toNat - 48) := by
  simp [digitsToNat, List.foldl_append]

theorem digitChar_isDigit {d : Nat} (h : d < 10) :
    (Nat.digitChar d).isDigit = true := by
  interval_cases d <;> decide

theorem digitChar_toNat {d : Nat} (h : d < 10) :
    (Nat.digitChar d).toNat - 48 = d := by
  interval_cases d <;> decide

theorem natStrF_val : ∀ fuel n, n < fuel → digitsToNat (natStrF fuel n) = n := by
  intro fuel
  induction fuel with
  | zero => intro n h; omega
  | succ fuel ih =>
    intro n h
    by_cases h10 : n < 10
    · simp only [natStrF, if_pos h10]
      simpa [digitsToNat] using digitChar_toNat h10
    · have hpos : 0 < n := by omega
      have hdiv : n / 10 < n := Nat.div_lt_self hpos (by omega)
      simp only [natStrF, if_neg h10]
      rw [digitsToNat_append, ih (n / 10) (by omega),
        digitChar_toNat (Nat.mod_lt n (by omega))]
      omega

theorem natStr_val (n : Nat) : digitsToNat (natStr n) = n :=
  natStrF_val (n + 1) n (by omega)

theorem natStrF_mem_isDigit :
    ∀ fuel n c, c ∈ natStrF fuel n → c.isDigit = true := by
  intro fuel
  induction fuel with
  | zero => intro n c h; simp [natStrF] at h
  | succ fuel ih =>
    intro n c h
    by_cases h10 : n < 10
    · simp only [natStrF, if_pos h10, List.mem_singleton] at h
      exact h ▸ digitChar_isDigit h10
    · simp only [natStrF, if_neg h10, List.mem_append, List.mem_singleton] at h
      rcases h with h | h
      · exact ih _ _ h
      · exact h ▸ digitChar_isDigit (Nat.mod_lt n (by omega))

theorem natStrF_ne_nil (fuel n : Nat) : natStrF (fuel + 1) n ≠ [] := by
  by_cases h10 : n < 10 <;> simp [natStrF, h10]

theorem natStr_head_digit (n : Nat) :
    ∀ c, (natStr n).head? = some c → c.isDigit = true := by
  intro c h
  cases hs : natStr n with
  | nil => exact absurd hs (natStrF_ne_nil n n)
  | cons a l =>
    rw [hs] at h
    simp only [List.head?_cons, Option.some.injEq] at h
    have ha : a ∈ natStr n := by rw [hs]; exact List.mem_cons_self a l
    exact h ▸ natStrF_mem_isDigit (n + 1) n a ha

theorem isDigit_ne_sign {c : Char} (h : c.isDigit = true) :
    c ≠ '-' ∧ c ≠ '+' := by
  constructor <;> rintro rfl <;> exact absurd h (by decide)

theorem digitsToNat_replicate_zero (z : Nat) (s : List Char) :
    digitsToNat (List.replicate z '0' ++ s) = digitsToNat s := by
  induction z with
  | zero => rfl
  | succ z ih =>
    simpa [digitsToNat, List.replicate_succ] using ih

theorem parseIntL_replicate_append (z : Nat) (s : List Char)
    (h : s.head? ≠ some '-') :
    parseIntL (List.replicate z '0' ++ s) = (digitsToNat s : Int) := by
  cases z with
  | zero => simp [parseIntL, h]
  | succ z =>
    have : (List.replicate (z + 1) '0' ++ s).head? = some '0' := by
      simp [List.replicate_succ]
    simp only [parseIntL, this]
    rw [if_neg (by simp)]
    rw [digitsToNat_replicate_zero]

theorem zfill_parse_intStr (i : Int) (w : Nat) :
    parseIntL (zfill (intStr i) w) = i := by
  by_cases hneg : i < 0
  · have hi : intStr i = '-' :: natStr i.natAbs := by simp [intStr, hneg]
    rw [hi]
    unfold zfill
    by_cases hw : w ≤ ('-' :: natStr i.natAbs).length
    · rw [if_pos hw]
      simp only [parseIntL, List.head?_cons, if_true, List.tail_cons,
        natStr_val]
      omega
    · rw [if_neg hw, if_pos (by simp)]
      have hrw : List.take 1 ('-' :: natStr i.natAbs) ++
          List.replicate (w - ('-' :: natStr i.natAbs).length) '0' ++
          List.drop 1 ('-' :: natStr i.natAbs) =
          '-' :: (List.replicate (w - ('-' :: natStr i.natAbs).length) '0' ++
            natStr i.natAbs) := rfl
      rw [hrw]
      simp only [parseIntL, List.head?_cons, if_true, List.tail_cons]
      rw [digitsToNat_replicate_zero, natStr_val]
      omega
  · have hi : intStr i = natStr i.toNat := by simp [intStr, hneg]
    have hhead : ∀ c, (natStr i.toNat).head? = some c → c ≠ '-' ∧ c ≠ '+' :=
      fun c hc => isDigit_ne_sign (natStr_head_digit _ c hc)
    have hne : (natStr i.toNat).head? ≠ some '-' := by
      intro h; exact (hhead '-' h).1 rfl
    have hne' : (natStr i.toNat).head? ≠ some '+' := by
      intro h; exact (hhead '+' h).2 rfl
    rw [hi]
    unfold zfill
    by_cases hw : w ≤ (natStr i.toNat).length
    · rw [if_pos hw]
      simp only [parseIntL, if_neg hne, natStr_val]
      omega
    · rw [if_neg hw, if_neg (by simp [hne, hne'])]
      rw [parseIntL_replicate_append _ _ hne, natStr_val]
      omega

theorem zfill_intStr_inj {w : Nat} {i j : Int}
    (h : zfill (intStr i) w = zfill (intStr j) w) : i = j := by
  have := congrArg parseIntL h
  rwa [zfill_parse_intStr, zfill_parse_intStr] at this

/-! ## The substitution scanners: length accounting and injectivity -/

theorem subPercAux_length (rep : List Char) :
    ∀ (l : List Char) (pend : Option (List Char)),
    (subPercAux rep pend l).length =
      percResid pend l + percCnt pend l * rep.length := by
  intro l
  induction l with
  | nil => intro pend; cases pend <;> simp [subPercAux, percResid, percCnt]
  | cons c rest ih =>
    intro pend
    cases pend with
    | none =>
      by_cases h : c = '%'
      · simp [subPercAux, percResid, percCnt, h, ih]
      · simp [subPercAux, percResid, percCnt, h, ih]; ring
    | some ds =>
      by_cases hd : c = 'd'
      · simp [subPercAux, percResid, percCnt, hd, ih]; ring
      · by_cases hdig : c.isDigit
        · simp [subPercAux, percResid, percCnt, hd, hdig, ih]
        · by_cases hp : c = '%'
          · simp [subPercAux, percResid, percCnt, hd, hdig, hp, ih]; ring
          · simp [subPercAux, percResid, percCnt, hd, hdig, hp, ih]; ring

theorem subPercAux_inj (rep1 rep2 : List Char)
    (hlen : rep1.length = rep2.length) :
    ∀ (l : List Char) (pend : Option (List Char)),
    1 ≤ percCnt pend l →
    subPercAux rep1 pend l = subPercAux rep2 pend l → rep1 = rep2 := by
  intro l
  induction l with
  | nil => intro pend hc; cases pend <;> simp [percCnt] at hc
  | cons c rest ih =>
    intro pend hc heq
    cases pend with
    | none =>
      by_cases h : c = '%'
      · simp only [subPercAux, if_pos h] at heq
        simp only [percCnt, if_pos h] at hc
        exact ih _ hc heq
      · simp only [subPercAux, if_neg h, List.cons.injEq, true_and] at heq
        simp only [percCnt, if_neg h] at hc
        exact ih _ hc heq
    | some ds =>
      by_cases hd : c = 'd'
      · simp only [subPercAux, if_pos hd] at heq
        exact (List.append_inj heq hlen).1
      · by_cases hdig : c.isDigit
        · simp only [subPercAux, if_neg hd, if_pos hdig] at heq
          simp only [percCnt, if_neg hd, if_pos hdig] at hc
          exact ih _ hc heq
        · by_cases hp : c = '%'
          · simp only [subPercAux, if_neg hd, if_neg hdig, if_pos hp] at heq
            simp only [percCnt, if_neg hd, if_neg hdig, if_pos hp] at hc
            exact ih _ hc (List.append_cancel_left heq)
          · simp only [subPercAux, if_neg hd, if_neg hdig, if_neg hp] at heq
            simp only [percCnt, if_neg hd, if_neg hdig, if_neg hp] at hc
            have := List.append_cancel_left heq
            simp only [List.cons.injEq, true_and] at this
            exact ih _ hc this

theorem percCnt_pending (b : List Char) :
    ∀ (ds acc : List Char), (∀ c ∈ ds, c.isDigit = true) →
    1 ≤ percCnt (some acc) (ds ++ 'd' :: b) := by
  intro ds
  induction ds with
  | nil => intro acc _; simp [percCnt]
  | cons d ds ih =>
    intro acc hds
    have hd : d.isDigit = true := hds d (List.mem_cons_self d ds)
    have hne : d ≠ 'd' := by
      intro h; rw [h] at hd; exact absurd hd (by decide)
    simp only [List.cons_append, percCnt, if_neg hne, if_pos hd]
    exact ih _ (fun c hc => hds c (List.mem_cons_of_mem _ hc))

theorem percCnt_pos (b : List Char) :
    ∀ (a : List Char) (pend : Option (List Char)) (ds : List Char),
    (∀ c ∈ ds, c.isDigit = true) →
    1 ≤ percCnt pend (a ++ '%' :: (ds ++ 'd' :: b)) := by
  intro a
  induction a with
  | nil =>
    intro pend ds hds
    cases pend with
    | none =>
      simp only [List.nil_append, percCnt, if_pos rfl]
      exact percCnt_pending b ds [] hds
    | some acc =>
      simp only [List.nil_append, percCnt, if_neg (by decide : ('%' : Char) ≠ 'd'),
        if_neg (by decide : ¬('%' : Char).isDigit = true), if_pos rfl]
      exact percCnt_pending b ds [] hds
  | cons c a ih =>
    intro pend ds hds
    cases pend with
    | none =>
      by_cases h : c = '%'
      · simp only [List.cons_append, percCnt, if_pos h]
        exact ih _ ds hds
      · simp only [List.cons_append, percCnt, if_neg h]
        exact ih _ ds hds
    | some acc =>
      by_cases hd : c = 'd'
      · simp only [List.cons_append, percCnt, if_pos hd]
        omega
      · by_cases hdig : c.isDigit
        · simp only [List.cons_append, percCnt, if_neg hd, if_pos hdig]
          exact ih _ ds hds
        · by_cases hp : c = '%'
          · simp only [List.cons_append, percCnt, if_neg hd, if_neg hdig,
              if_pos hp]
            exact ih _ ds hds
          · simp only [List.cons_append, percCnt, if_neg hd, if_neg hdig,
              if_neg hp]
            exact ih _ ds hds

theorem subHashAux_length (rep : List Char) :
    ∀ (l : List Char) (st : Bool),
    (subHashAux rep st l).length =
      hashResid st l + hashCnt st l * rep.length := by
  intro l
  induction l with
  | nil => intro st; simp [subHashAux, hashResid, hashCnt]
  | cons c rest ih =>
    intro st
    by_cases h : c = '#'
    · cases st
      · simp [subHashAux, hashResid, hashCnt, h, ih]; try ring
      · simp [subHashAux, hashResid, hashCnt, h, ih]; try ring
    · simp [subHashAux, hashResid, hashCnt, h, ih]; try ring

theorem subHashAux_inj (rep1 rep2 : List Char)
    (hlen : rep1.length = rep2.length) :
    ∀ (l : List Char) (st : Bool),
    1 ≤ hashCnt st l →
    subHashAux rep1 st l = subHashAux rep2 st l → rep1 = rep2 := by
  intro l
  induction l with
  | nil => intro st hc; simp [hashCnt] at hc
  | cons c rest ih =>
    intro st hc heq
    by_cases h : c = '#'
    · cases st with
      | false =>
        simp only [subHashAux, if_pos h, Bool.false_eq_true, if_neg] at heq
        exact (List.append_inj heq hlen).1
      | true =>
        simp only [subHashAux, if_pos h, if_true, List.nil_append] at heq
        simp only [hashCnt, if_pos h, if_true, Nat.zero_add] at hc
        exact ih _ hc heq
    · simp only [subHashAux, if_neg h, List.cons.injEq, true_and] at heq
      simp only [hashCnt, if_neg h] at hc
      exact ih _ hc heq

theorem hashCnt_pos : ∀ l : List Char, '#' ∈ l → 1 ≤ hashCnt false l := by
  intro l
  induction l with
  | nil => intro h; simp at h
  | cons c rest ih =>
    intro h
    by_cases hc : c = '#'
    · simp [hashCnt, hc]
    · simp only [hashCnt, if_neg hc]
      rcases List.mem_cons.mp h with h | h
      · exact absurd h.symm hc
      · exact ih h

/-! ## Structure of the padding-token search -/

theorem digitRunLen_take_isDigit :
    ∀ l : List Char, ∀ c ∈ l.take (digitRunLen l), c.isDigit = true := by
  intro l
  induction l with
  | nil => intro c hc; simp at hc
  | cons a rest ih =>
    intro c hc
    by_cases ha : a.isDigit
    · simp only [digitRunLen, if_pos ha, List.take_succ_cons, List.mem_cons] at hc
      rcases hc with rfl | hc
      · exact ha
      · exact ih c hc
    · simp [digitRunLen, if_neg ha] at hc

theorem digitRunLen_digits_append (c : Char) (b : List Char)
    (hc : c.isDigit = false) :
    ∀ ds : List Char, (∀ x ∈ ds, x.isDigit = true) →
    digitRunLen (ds ++ c :: b) = ds.length := by
  intro ds
  induction ds with
  | nil => intro _; simp [digitRunLen, hc]
  | cons d ds ih =>
    intro h
    have hd : d.isDigit = true := h d (List.mem_cons_self d ds)
    have hih := ih (fun x hx => h x (List.mem_cons_of_mem _ hx))
    show digitRunLen (d :: (ds ++ c :: b)) = ds.length + 1
    rw [digitRunLen, if_pos hd, hih]

theorem findPad_split :
    ∀ (l tok : List Char), findPad l = some tok →
    (∃ a ds b, l = a ++ '%' :: (ds ++ 'd' :: b) ∧
      (∀ c ∈ ds, c.isDigit = true) ∧ tok = '%' :: (ds ++ ['d'])) ∨
    (∃ a k b, l = a ++ (List.replicate (k + 1) '#' ++ b) ∧
      tok = List.replicate (k + 1) '#') := by
  intro l
  induction l with
  | nil => intro tok h; simp [findPad] at h
  | cons c rest ih =>
    intro tok h
    cases hpt : percentTokAt (c :: rest) with
    | some tr =>
      rw [findPad, hpt] at h
      simp only [Option.some.injEq] at h
      by_cases hc : c = '%'
      · subst hc
        simp only [percentTokAt, if_pos rfl] at hpt
        by_cases hd : (rest.drop (digitRunLen rest)).head? = some 'd'
        · simp only [hd, if_true] at hpt
          simp only [Option.some.injEq] at hpt
          left
          refine ⟨[], rest.take (digitRunLen rest),
            (rest.drop (digitRunLen rest)).tail, ?_, ?_, ?_⟩
          · cases hdrop : rest.drop (digitRunLen rest) with
            | nil => rw [hdrop] at hd; simp at hd
            | cons x t =>
              rw [hdrop] at hd
              simp only [List.head?_cons, Option.some.injEq] at hd
              subst hd
              simp only [List.nil_append, List.cons.injEq, true_and,
                List.tail_cons]
              conv_lhs => rw [← List.take_append_drop (digitRunLen rest) rest]
              rw [hdrop]
          · exact digitRunLen_take_isDigit rest
          · rw [← h, ← hpt]
        · rw [if_neg hd] at hpt; exact absurd hpt (by simp)
      · simp only [percentTokAt, if_neg hc] at hpt
        exact absurd hpt (by simp)
    | none =>
      rw [findPad, hpt] at h
      by_cases hc : c = '#'
      · rw [if_pos hc] at h
        simp only [Option.some.injEq] at h
        right
        have hall : ∀ x ∈ rest.takeWhile (fun y => y = '#'), x = '#' := by
          intro x hx
          have := List.mem_takeWhile_imp hx
          simpa using this
        have hrep : rest.takeWhile (fun y => y = '#') =
            List.replicate (rest.takeWhile (fun y => y = '#')).length '#' :=
          List.eq_replicate_of_mem hall
        refine ⟨[], (rest.takeWhile (fun y => y = '#')).length,
          rest.dropWhile (fun y => y = '#'), ?_, ?_⟩
        · subst hc
          simp only [List.nil_append, List.replicate_succ, List.cons_append,
            List.cons.injEq, true_and]
          conv_lhs => rw [← List.takeWhile_append_dropWhile
            (p := fun y => y = '#') (l := rest)]
          rw [← hrep]
        · rw [← h, List.replicate_succ, ← hrep]
      · rw [if_neg hc] at h
        rcases ih tok h with ⟨a, ds, b, hl, hds, htok⟩ | ⟨a, k, b, hl, htok⟩
        · exact Or.inl ⟨c :: a, ds, b, by rw [List.cons_append, ← hl], hds, htok⟩
        · exact Or.inr ⟨c :: a, k, b, by rw [List.cons_append, ← hl], htok⟩

theorem findPad_isSome_of_hash :
    ∀ l : List Char, '#' ∈ l → (findPad l).isSome = true := by
  intro l
  induction l with
  | nil => intro h; simp at h
  | cons c rest ih =>
    intro h
    cases hpt : percentTokAt (c :: rest) with
    | some tr => rw [findPad, hpt]; rfl
    | none =>
      by_cases hc : c = '#'
      · rw [findPad, hpt, if_pos hc]; rfl
      · rw [findPad, hpt, if_neg hc]
        rcases List.mem_cons.mp h with h | h
        · exact absurd h.symm hc
        · exact ih h

theorem findPad_isSome_of_perc :
    ∀ (a ds b : List Char), (∀ c ∈ ds, c.isDigit = true) →
    (findPad (a ++ '%' :: (ds ++ 'd' :: b))).isSome = true := by
  intro a
  induction a with
  | nil =>
    intro ds b hds
    have hn : digitRunLen (ds ++ 'd' :: b) = ds.length :=
      digitRunLen_digits_append 'd' b (by decide) ds hds
    have hdrop : (ds ++ 'd' :: b).drop ds.length = 'd' :: b :=
      List.drop_left ds ('d' :: b)
    have hcond : ((ds ++ 'd' :: b).drop (digitRunLen (ds ++ 'd' :: b))).head? =
        some 'd' := by
      rw [hn, hdrop]; rfl
    have hpt : (percentTokAt ('%' :: (ds ++ 'd' :: b))).isSome = true := by
      simp [percentTokAt, hcond]
    rw [List.nil_append, findPad]
    cases hx : percentTokAt ('%' :: (ds ++ 'd' :: b)) with
    | none => rw [hx] at hpt; simp at hpt
    | some tr => obtain ⟨t, r⟩ := tr; rfl
  | cons c a ih =>
    intro ds b hds
    rw [List.cons_append]
    cases hpt : percentTokAt (c :: (a ++ '%' :: (ds ++ 'd' :: b))) with
    | some tr => rw [findPad, hpt]; rfl
    | none =>
      by_cases hc : c = '#'
      · rw [findPad, hpt, if_pos hc]; rfl
      · rw [findPad, hpt, if_neg hc]; exact ih ds b hds

theorem findPad_none_iff (l : List Char) :
    findPad l = none ↔
    ('#' ∉ l ∧ ∀ a ds b, (∀ c ∈ ds, c.isDigit = true) →
      l ≠ a ++ '%' :: (ds ++ 'd' :: b)) := by
  constructor
  · intro h
    refine ⟨?_, ?_⟩
    · intro hm
      have := findPad_isSome_of_hash l hm
      rw [h] at this
      simp at this
    · intro a ds b hds hl
      have := findPad_isSome_of_perc a ds b hds
      rw [← hl, h] at this
      simp at this
  · rintro ⟨h1, h2⟩
    cases hf : findPad l with
    | none => rfl
    | some tok =>
      rcases findPad_split l tok hf with ⟨a, ds, b, hl, hds, _⟩ |
        ⟨a, k, b, hl, _⟩
      · exact absurd hl (h2 a ds b hds)
      · exact absurd (by rw [hl]; simp [List.mem_replicate]) h1

theorem findPad_leftmost :
    ∀ (l tok : List Char), findPad l = some tok →
    ∃ i, startsTok (List.drop i l) = true ∧
      (∀ j, j < i → startsTok (List.drop j l) = false) ∧
      tok = tokAt (List.drop i l) := by
  intro l
  induction l with
  | nil => intro tok h; simp [findPad] at h
  | cons c rest ih =>
    intro tok h
    cases hpt : percentTokAt (c :: rest) with
    | some tr =>
      rw [findPad, hpt] at h
      simp only [Option.some.injEq] at h
      refine ⟨0, ?_, by omega, ?_⟩
      · simp [startsTok, hpt]
      · simp only [List.drop_zero, tokAt, hpt]
        exact h.symm
    | none =>
      by_cases hc : c = '#'
      · rw [findPad, hpt, if_pos hc] at h
        simp only [Option.some.injEq] at h
        subst hc
        refine ⟨0, ?_, by omega, ?_⟩
        · simp [startsTok]
        · simp only [List.drop_zero, tokAt, hpt]
          simp only [List.takeWhile_cons, decide_eq_true_eq, if_pos rfl,
            if_true]
          exact h.symm
      · rw [findPad, hpt, if_neg hc] at h
        obtain ⟨i, h1, h2, h3⟩ := ih tok h
        refine ⟨i + 1, ?_, ?_, ?_⟩
        · rwa [List.drop_succ_cons]
        · intro j hj
          cases j with
          | zero =>
            simp only [List.drop_zero, startsTok, hpt, Option.isSome_none,
              Bool.false_or, List.head?_cons, decide_eq_true_eq]
            simp [hc]
          | succ j => rw [List.drop_succ_cons]; exact h2 j (by omega)
        · rwa [List.drop_succ_cons]

theorem takeWhile_digits_append (ds : List Char)
    (h : ∀ c ∈ ds, c.isDigit = true) :
    (ds ++ ['d']).takeWhile Char.isDigit = ds := by
  induction ds with
  | nil => decide
  | cons d ds ih =>
    have hd : d.isDigit = true := h d (List.mem_cons_self d ds)
    simp only [List.cons_append, List.takeWhile_cons, hd, if_true]
    rw [ih (fun c hc => h c (List.mem_cons_of_mem _ hc))]

theorem padLenOf_percent (ds : List Char) (h : ∀ c ∈ ds, c.isDigit = true) :
    padLenOf ('%' :: (ds ++ ['d'])) = if ds = [] then 1 else digitsToNat ds := by
  cases ds with
  | nil => decide
  | cons d ds =>
    have hd : d.isDigit = true := h d (List.mem_cons_self d ds)
    have hpc : ('%' : Char).isDigit = false := by decide
    have hfd : firstDigitRun ('%' :: ((d :: ds) ++ ['d'])) = d :: ds := by
      unfold firstDigitRun
      rw [List.dropWhile_cons]
      simp only [hpc, Bool.not_false, if_true]
      rw [List.cons_append, List.dropWhile_cons]
      simp only [hd, Bool.not_true, Bool.false_eq_true, if_false]
      rw [List.takeWhile_cons]
      simp only [hd, if_true]
      rw [takeWhile_digits_append ds
        (fun c hc => h c (List.mem_cons_of_mem _ hc))]
    simp only [padLenOf, List.head?_cons, Option.some.injEq, if_true, hfd]
    simp

theorem padLenOf_hash (k : Nat) :
    padLenOf (List.replicate (k + 1) '#') = k + 1 := by
  rw [List.replicate_succ]
  simp only [padLenOf, List.head?_cons]
  rw [if_neg (by simp)]
  simp

/-! ## Injectivity of the rendered frame filename -/

theorem renderName_inj (base tok : List Char) (hf : findPad base = some tok) :
    ∀ f g : Int, renderName tok f base = renderName tok g base → f = g := by
  intro f g heq
  rcases findPad_split base tok hf with ⟨a, ds, b, hl, hds, htok⟩ |
    ⟨a, k, b, hl, htok⟩
  · have hhead : tok.head? = some '%' := by rw [htok]; rfl
    simp only [renderName, hhead, if_true] at heq
    have hcnt : 1 ≤ percCnt none base := by
      rw [hl]; exact percCnt_pos b a none ds hds
    have hl1 := subPercAux_length (zfill (intStr f) (padLenOf tok)) base none
    have hl2 := subPercAux_length (zfill (intStr g) (padLenOf tok)) base none
    have hlen : (zfill (intStr f) (padLenOf tok)).length =
        (zfill (intStr g) (padLenOf tok)).length := by
      have hc := congrArg List.length heq
      simp only [subPercent] at hc
      rw [hl1, hl2] at hc
      have := Nat.add_left_cancel hc
      exact Nat.eq_of_mul_eq_mul_left hcnt this
    exact zfill_intStr_inj
      (subPercAux_inj _ _ hlen base none hcnt heq)
  · have hhead : tok.head? = some '#' := by rw [htok, List.replicate_succ]; rfl
    have hne : ¬tok.head? = some '%' := by rw [hhead]; simp
    simp only [renderName, hne, if_false] at heq
    have hcnt : 1 ≤ hashCnt false base := by
      apply hashCnt_pos
      rw [hl]
      simp [List.mem_append, List.mem_replicate]
    have hl1 := subHashAux_length (zfill (intStr f) (padLenOf tok)) base false
    have hl2 := subHashAux_length (zfill (intStr g) (padLenOf tok)) base false
    have hlen : (zfill (intStr f) (padLenOf tok)).length =
        (zfill (intStr g) (padLenOf tok)).length := by
      have hc := congrArg List.length heq
      simp only [subHashes] at hc
      rw [hl1, hl2] at hc
      have := Nat.add_left_cancel hc
      exact Nat.eq_of_mul_eq_mul_left hcnt this
    exact zfill_intStr_inj
      (subHashAux_inj _ _ hlen base false hcnt heq)

/-! ## Engine lemmas: poll accounting, cancellation, localization -/

theorem submitLoop_polls_le (sig : Nat → Bool) :
    ∀ (tasks : List CopyJob) (st : EngineState),
    st.polls ≤ (submitLoop sig tasks st).polls := by
  intro tasks
  induction tasks with
  | nil => intro st; exact Nat.le_refl _
  | cons j rest ih =>
    intro st
    rw [submitLoop]
    by_cases h : sig st.polls = true
    · rw [if_pos h]; exact Nat.le_succ _
    · rw [if_neg h]
      exact le_trans (Nat.le_succ _)
        (ih { st with polls := st.polls + 1, jobs := st.jobs ++ [j] })

theorem copy_seq_polls_le (sig : Nat → Bool) (st : EngineState)
    (fp out : List Char) (a b : Int) :
    st.polls ≤ (copy_sequence_parallel sig st fp out a b).polls := by
  cases hf : findPad (basenameL fp) with
  | none =>
    simp only [copy_sequence_parallel, hf]
    exact Nat.le_refl _
  | some tok =>
    simp only [copy_sequence_parallel, hf]
    exact submitLoop_polls_le sig (seqTasks fp out tok a b)
      { st with dirs := st.dirs ++ [joinL out (basenameL (dirnameL fp))] }

theorem processNode_polls_le (sig : Nat → Bool) (foot : List Char)
    (node : Node) (st : EngineState) :
    st.polls ≤ (processNode sig foot node st).polls := by
  rw [processNode]
  repeat' split
  all_goals first
    | exact Nat.le_refl _
    | exact copy_seq_polls_le sig st node.file foot node.first node.last

theorem processNodes_polls_le (sig : Nat → Bool) (foot : List Char) :
    ∀ (l : List Node) (st : EngineState),
    st.polls ≤ (processNodes sig foot l st).polls := by
  intro l
  induction l with
  | nil => intro st; exact Nat.le_refl _
  | cons node rest ih =>
    intro st
    rw [processNodes]
    by_cases h : sig st.polls = true
    · rw [if_pos h]; exact Nat.le_succ _
    · rw [if_neg h]
      exact le_trans (Nat.le_succ _)
        (le_trans
          (processNode_polls_le sig foot node { st with polls := st.polls + 1 })
          (ih (processNode sig foot node { st with polls := st.polls + 1 })))

theorem processNodes_polls_lt (sig : Nat → Bool) (foot : List Char)
    (node : Node) (rest : List Node) (st : EngineState) :
    st.polls < (processNodes sig foot (node :: rest) st).polls := by
  rw [processNodes]
  by_cases h : sig st.polls = true
  · rw [if_pos h]; exact Nat.lt_succ_self _
  · rw [if_neg h]
    exact lt_of_lt_of_le (Nat.lt_succ_self _)
      (le_trans
        (processNode_polls_le sig foot node { st with polls := st.polls + 1 })
        (processNodes_polls_le sig foot rest
          (processNode sig foot node { st with polls := st.polls + 1 })))

theorem submitLoop_false :
    ∀ (tasks : List CopyJob) (st : EngineState),
    submitLoop (fun _ => false) tasks st =
      { st with polls := st.polls + tasks.length, jobs := st.jobs ++ tasks } := by
  intro tasks
  induction tasks with
  | nil => intro st; simp [submitLoop]
  | cons j rest ih =>
    intro st
    rw [submitLoop, if_neg (by simp), ih]
    congr 1
    · simp; omega
    · simp

theorem copy_seq_false_cancelled (st : EngineState) (fp out : List Char)
    (a b : Int) :
    (copy_sequence_parallel (fun _ => false) st fp out a b).cancelled =
      st.cancelled := by
  cases hf : findPad (basenameL fp) with
  | none => simp only [copy_sequence_parallel, hf]
  | some tok =>
    simp only [copy_sequence_parallel, hf]
    rw [submitLoop_false]

theorem processNode_false_cancelled (foot : List Char) (node : Node)
    (st : EngineState) :
    (processNode (fun _ => false) foot node st).cancelled = st.cancelled := by
  rw [processNode]
  repeat' split
  all_goals first
    | rfl
    | exact copy_seq_false_cancelled st node.file foot node.first node.last

theorem processNodes_false_cancelled (foot : List Char) :
    ∀ (l : List Node) (st : EngineState),
    (processNodes (fun _ => false) foot l st).cancelled = st.cancelled := by
  intro l
  induction l with
  | nil => intro st; rfl
  | cons node rest ih =>
    intro st
    rw [processNodes, if_neg (by simp)]
    rw [ih, processNode_false_cancelled]

theorem submitLoop_locB (sig : Nat → Bool) :
    ∀ (tasks : List CopyJob) (st : EngineState) (B : Nat),
    st.polls + tasks.length ≤ B →
    (∀ n, st.polls ≤ n → n < B → sig n = false) →
    submitLoop sig tasks st = submitLoop (fun _ => false) tasks st := by
  intro tasks
  induction tasks with
  | nil => intro st B _ _; rfl
  | cons j rest ih =>
    intro st B hB hr
    have h0 : sig st.polls = false := by
      apply hr st.polls (Nat.le_refl _)
      simp only [List.length_cons] at hB
      omega
    rw [submitLoop, if_neg (by simp [h0]), submitLoop, if_neg (by simp)]
    apply ih _ B
    · simp only [List.length_cons] at hB
      have : ({ st with polls := st.polls + 1, jobs := st.jobs ++ [j] } :
        EngineState).polls = st.polls + 1 := rfl
      omega
    · intro n h1 h2
      have h1' : st.polls + 1 ≤ n := h1
      exact hr n (by omega) h2

theorem copy_seq_false_polls (st : EngineState) (fp out : List Char)
    (a b : Int) :
    (copy_sequence_parallel (fun _ => false) st fp out a b).polls =
      st.polls + (match findPad (basenameL fp) with
        | none => 0
        | some tok => (seqTasks fp out tok a b).length) := by
  cases hf : findPad (basenameL fp) with
  | none => simp only [copy_sequence_parallel, hf]; omega
  | some tok =>
    simp only [copy_sequence_parallel, hf]
    rw [submitLoop_false]

theorem copy_seq_locB (sig : Nat → Bool) (st : EngineState)
    (fp out : List Char) (a b : Int) (B : Nat)
    (hB : (copy_sequence_parallel (fun _ => false) st fp out a b).polls ≤ B)
    (hr : ∀ n, st.polls ≤ n → n < B → sig n = false) :
    copy_sequence_parallel sig st fp out a b =
      copy_sequence_parallel (fun _ => false) st fp out a b := by
  rw [copy_seq_false_polls] at hB
  cases hf : findPad (basenameL fp) with
  | none => simp only [copy_sequence_parallel, hf]
  | some tok =>
    rw [hf] at hB
    simp only [copy_sequence_parallel, hf]
    exact submitLoop_locB sig (seqTasks fp out tok a b)
      { st with dirs := st.dirs ++ [joinL out (basenameL (dirnameL fp))] }
      B hB hr

theorem processNode_locB (sig : Nat → Bool) (foot : List Char) (node : Node)
    (st : EngineState) (B : Nat)
    (hB : (processNode (fun _ => false) foot node st).polls ≤ B)
    (hr : ∀ n, st.polls ≤ n → n < B → sig n = false) :
    processNode sig foot node st = processNode (fun _ => false) foot node st := by
  cases hfile : node.hasFile with
  | false => simp [processNode, hfile]
  | true =>
    cases hrender : node.hasRender with
    | true => simp [processNode, hfile, hrender]
    | false =>
      by_cases h2 : node.file = []
      · simp [processNode, hfile, hrender, h2]
      · by_cases h3 : extLower node.file ∈ video_exts
        · simp [processNode, hfile, hrender, h2, h3]
        · cases hfirst : node.hasFirst with
          | false => simp [processNode, hfile, hrender, h2, h3, hfirst]
          | true =>
            by_cases h5 : node.first = node.last
            · simp [processNode, hfile, hrender, h2, h3, hfirst, h5]
            · simp only [processNode] at hB
              simp [hfile, hrender, h2, h3, hfirst, h5] at hB
              simp [processNode, hfile, hrender, h2, h3, hfirst, h5]
              exact copy_seq_locB sig st node.file foot node.first node.last
                B hB hr

theorem processNodes_locB (sig : Nat → Bool) (foot : List Char) :
    ∀ (l : List Node) (st : EngineState) (B : Nat),
    (processNodes (fun _ => false) foot l st).polls ≤ B →
    (∀ n, st.polls ≤ n → n < B → sig n = false) →
    processNodes sig foot l st = processNodes (fun _ => false) foot l st := by
  intro l
  induction l with
  | nil => intro st B _ _; rfl
  | cons node rest ih =>
    intro st B hB hr
    have hlt : st.polls <
        (processNodes (fun _ => false) foot (node :: rest) st).polls :=
      processNodes_polls_lt _ foot node rest st
    have h0 : sig st.polls = false := hr st.polls (Nat.le_refl _) (by omega)
    rw [processNodes, if_neg (by simp [h0]),
      processNodes, if_neg (by simp)]
    have hstep : (processNode (fun _ => false) foot node
        { st with polls := st.polls + 1 }).polls ≤ B := by
      refine le_trans ?_ hB
      calc (processNode (fun _ => false) foot node
            { st with polls := st.polls + 1 }).polls
          ≤ (processNodes (fun _ => false) foot rest
              (processNode (fun _ => false) foot node
                { st with polls := st.polls + 1 })).polls :=
            processNodes_polls_le _ foot rest _
        _ = (processNodes (fun _ => false) foot (node :: rest) st).polls := by
            rw [processNodes, if_neg (by simp)]
    have hnode : processNode sig foot node { st with polls := st.polls + 1 } =
        processNode (fun _ => false) foot node
          { st with polls := st.polls + 1 } := by
      apply processNode_locB sig foot node _ B hstep
      intro n h1 h2
      have h1' : st.polls + 1 ≤ n := h1
      exact hr n (by omega) h2
    rw [hnode]
    apply ih _ B
    · refine le_trans ?_ hB
      rw [processNodes, if_neg (by simp)]
    · intro n h1 h2
      have h1' : ({ st with polls := st.polls + 1 } : EngineState).polls ≤
          (processNode (fun _ => false) foot node
            { st with polls := st.polls + 1 }).polls :=
        processNode_polls_le _ foot node _
      have h1'' : st.polls + 1 ≤ n := le_trans h1' h1
      exact hr n (by omega) h2

theorem processNodes_appendB (sig : Nat → Bool) (foot : List Char) :
    ∀ (a : List Node) (b : List Node) (st : EngineState) (B : Nat),
    (processNodes sig foot a st).polls ≤ B →
    (∀ n, st.polls ≤ n → n < B → sig n = false) →
    processNodes sig foot (a ++ b) st =
      processNodes sig foot b (processNodes sig foot a st) := by
  intro a
  induction a with
  | nil => intro b st B _ _; rfl
  | cons node rest ih =>
    intro b st B hB hr
    have hlt : st.polls < (processNodes sig foot (node :: rest) st).polls :=
      processNodes_polls_lt sig foot node rest st
    have h0 : sig st.polls = false := hr st.polls (Nat.le_refl _) (by omega)
    rw [List.cons_append, processNodes, if_neg (by simp [h0])]
    conv_rhs => rw [processNodes, if_neg (by simp [h0])]
    apply ih b _ B
    · refine le_trans ?_ hB
      rw [processNodes, if_neg (by simp [h0])]
    · intro n h1 h2
      have h1' : ({ st with polls := st.polls + 1 } : EngineState).polls ≤
          (processNode sig foot node { st with polls := st.polls + 1 }).polls :=
        processNode_polls_le sig foot node _
      have h1'' : st.polls + 1 ≤ n := le_trans h1' h1
      exact hr n (by omega) h2

theorem processNodes_break (sig : Nat → Bool) (foot : List Char) (node : Node)
    (rest : List Node) (st : EngineState) (h : sig st.polls = true) :
    processNodes sig foot (node :: rest) st =
      { st with polls := st.polls + 1, cancelled := true } := by
  rw [processNodes, if_pos h]

theorem processNodes_jobs_of_sig_true (sig : Nat → Bool) (foot : List Char)
    (l : List Node) (st : EngineState) (h : sig st.polls = true) :
    (processNodes sig foot l st).jobs = st.jobs := by
  cases l with
  | nil => rfl
  | cons node rest => rw [processNodes_break sig foot node rest st h]

theorem submitLoop_jobs_of_sig_true (sig : Nat → Bool) (tasks : List CopyJob)
    (st : EngineState) (h : sig st.polls = true) :
    (submitLoop sig tasks st).jobs = st.jobs := by
  cases tasks with
  | nil => rfl
  | cons j rest => rw [submitLoop, if_pos h]

/-! ## `collect` wrapper and whole-span substitution helpers -/

theorem collect_finalState (sig : Nat → Bool) (target : List Char)
    (nodes : List Node) :
    (collect sig target nodes).finalState =
      processNodes sig (footageOf target) nodes (initState target) := by
  simp only [collect]
  split <;> rfl

theorem collect_nodesAfter_of_cancelled (sig : Nat → Bool) (target : List Char)
    (nodes : List Node)
    (h : (collect sig target nodes).finalState.cancelled = true) :
    (collect sig target nodes).nodesAfter = nodes ∧
    (collect sig target nodes).scriptSaved = false := by
  rw [collect_finalState] at h
  simp only [collect]
  rw [if_pos]
  · exact ⟨rfl, rfl⟩
  · exact h

theorem collect_nodesAfter_of_not_cancelled (sig : Nat → Bool)
    (target : List Char) (nodes : List Node)
    (h : (collect sig target nodes).finalState.cancelled = false) :
    (collect sig target nodes).nodesAfter = nodes.map (fun n =>
      if n.hasFile ∧ ¬n.hasRender then update_node_path n else n) ∧
    (collect sig target nodes).scriptSaved = true := by
  rw [collect_finalState] at h
  simp only [collect]
  rw [if_neg]
  · exact ⟨rfl, rfl⟩
  · show ¬(processNodes sig (footageOf target) nodes
      (initState target)).cancelled = true
    rw [h]
    simp

theorem subHashAux_no_hash (rep : List Char) :
    ∀ (l : List Char) (st : Bool), '#' ∉ l → subHashAux rep st l = l := by
  intro l
  induction l with
  | nil => intro st _; rfl
  | cons c rest ih =>
    intro st hm
    have hc : ¬c = '#' := fun h => hm (h ▸ List.mem_cons_self c rest)
    rw [subHashAux, if_neg hc, ih false (fun h => hm (List.mem_cons_of_mem _ h))]

theorem subHashAux_run (rep b : List Char) (hb : '#' ∉ b) :
    ∀ k, subHashAux rep true (List.replicate k '#' ++ b) = b := by
  intro k
  induction k with
  | zero => simpa using subHashAux_no_hash rep b true hb
  | succ k ih =>
    rw [List.replicate_succ, List.cons_append, subHashAux, if_pos rfl]
    simpa using ih

/-! # Claim theorems -/

/-- **C2**: the copy primitive `copy_file` never lets an exception escape:
a missing (normalized) source yields `SourceMissing`, a raising copy yields
`Failed` with the exception, success yields `Copied` — all returning
normally; and in any batch of dispatched jobs each job's outcome is
computed independently, so one frame's `SourceMissing`/`Failed` never
prevents the other frames from being attempted nor aborts the run. -/
theorem claim2_copy_outcomes :
    ∀ (fs : FS) (src dst : List Char),
    (fs.pathExists (normpath src) = false →
      copy_file fs src dst = Outcome.SourceMissing) ∧
    (∀ e, fs.pathExists (normpath src) = true →
      fs.copyErr (normpath src) (normpath dst) = some e →
      copy_file fs src dst = Outcome.Failed e) ∧
    (fs.pathExists (normpath src) = true →
      fs.copyErr (normpath src) (normpath dst) = none →
      copy_file fs src dst = Outcome.Copied) ∧
    (∀ jobs : List CopyJob, (runOutcomes fs jobs).length = jobs.length ∧
      ∀ j : Nat, (runOutcomes fs jobs)[j]? =
        (jobs[j]?).map (fun jb => copy_file fs jb.src jb.dst)) := by
  intro fs src dst
  refine ⟨?_, ?_, ?_, ?_⟩
  · intro h; simp [copy_file, h]
  · intro e h1 h2; simp [copy_file, h1, h2]
  · intro h1 h2; simp [copy_file, h1, h2]
  · intro jobs
    exact ⟨by simp [runOutcomes], fun j => by simp [runOutcomes]⟩

/-- **C2 witness**: on concrete filesystems, the three outcomes are
produced as the theorem states. -/
theorem claim2_copy_outcomes_witness :
    copy_file fsAllMissing "/a/x.dpx".data "/o/x.dpx".data =
      Outcome.SourceMissing ∧
    copy_file fsAllFail "/a/x.dpx".data "/o/x.dpx".data =
      Outcome.Failed "io error".data ∧
    copy_file fsAllOk "/a/x.dpx".data "/o/x.dpx".data = Outcome.Copied := by
  refine ⟨?_, ?_, ?_⟩
  · exact (claim2_copy_outcomes fsAllMissing "/a/x.dpx".data
      "/o/x.dpx".data).1 rfl
  · exact (claim2_copy_outcomes fsAllFail "/a/x.dpx".data
      "/o/x.dpx".data).2.1 "io error".data rfl rfl
  · exact (claim2_copy_outcomes fsAllOk "/a/x.dpx".data
      "/o/x.dpx".data).2.2.1 rfl rfl

/-- **C4**: the padding parse of the token found by the search yields, for
a printf token `%...d`, the numeric value of its digit run (implicit `1`
for a bare `%d`), and for a hash run its length; the token used is the one
at the leftmost position where any token starts; the search returns
`none` exactly when the template contains neither a hash nor a
digits-then-`d` printf token; and on `none` the sequence copier submits no
jobs and returns normally (the run continues). -/
theorem claim4_padding_parse :
    (∀ l tok : List Char, findPad l = some tok →
      (∃ ds, (∀ c ∈ ds, c.isDigit = true) ∧ tok = '%' :: (ds ++ ['d']) ∧
        padLenOf tok = (if ds = [] then 1 else digitsToNat ds)) ∨
      (∃ k, tok = List.replicate (k + 1) '#' ∧ padLenOf tok = k + 1)) ∧
    (∀ l tok : List Char, findPad l = some tok →
      ∃ i, startsTok (List.drop i l) = true ∧
        (∀ j, j < i → startsTok (List.drop j l) = false) ∧
        tok = tokAt (List.drop i l)) ∧
    (∀ l : List Char, findPad l = none ↔
      ('#' ∉ l ∧ ∀ a ds b, (∀ c ∈ ds, c.isDigit = true) →
        l ≠ a ++ '%' :: (ds ++ 'd' :: b))) ∧
    (∀ (sig : Nat → Bool) (st : EngineState) (fp out : List Char) (a b : Int),
      findPad (basenameL fp) = none →
      (copy_sequence_parallel sig st fp out a b).jobs = st.jobs ∧
      (copy_sequence_parallel sig st fp out a b).cancelled = st.cancelled) := by
  refine ⟨?_, findPad_leftmost, findPad_none_iff, ?_⟩
  · intro l tok h
    rcases findPad_split l tok h with ⟨a, ds, b, _, hds, htok⟩ |
      ⟨a, k, b, _, htok⟩
    · exact Or.inl ⟨ds, hds, htok, by rw [htok]; exact padLenOf_percent ds hds⟩
    · exact Or.inr ⟨k, htok, by rw [htok]; exact padLenOf_hash k⟩
  · intro sig st fp out a b h
    simp [copy_sequence_parallel, h]

/-- **C4 witness**: concrete instances of all four components. -/
theorem claim4_padding_parse_witness :
    ((∃ ds, (∀ c ∈ ds, c.isDigit = true) ∧
        "%04d".data = '%' :: (ds ++ ['d']) ∧
        padLenOf "%04d".data = (if ds = [] then 1 else digitsToNat ds)) ∨
      (∃ k, "%04d".data = List.replicate (k + 1) '#' ∧
        padLenOf "%04d".data = k + 1)) ∧
    (∃ i, startsTok (List.drop i "a.##.e".data) = true ∧
      (∀ j, j < i → startsTok (List.drop j "a.##.e".data) = false) ∧
      "##".data = tokAt (List.drop i "a.##.e".data)) ∧
    findPad "plain.txt".data = none ∧
    (copy_sequence_parallel (fun _ => false) wStateEmpty
        "/sh/p/plate.dpx".data "/out/footage".data 1 3).jobs =
      wStateEmpty.jobs := by
  refine ⟨?_, ?_, ?_, ?_⟩
  · exact claim4_padding_parse.1 "x.%04d.e".data "%04d".data (by decide)
  · exact claim4_padding_parse.2.1 "a.##.e".data "##".data (by decide)
  · exact (claim4_padding_parse.2.2.1 "plain.txt".data).mpr
      (by refine ⟨by decide, ?_⟩
          intro a ds b hds hl
          have := findPad_isSome_of_perc a ds b hds
          rw [← hl] at this
          exact absurd this (by decide))
  · exact (claim4_padding_parse.2.2.2 (fun _ => false) wStateEmpty
      "/sh/p/plate.dpx".data "/out/footage".data 1 3 (by decide)).1

/-- **C5**: classification of a collectible reference (`file` knob present,
no `Render` knob, non-empty path): a video-container extension is treated
as a single file regardless of frame-range knobs; otherwise a `first` knob
with `first ≠ last` goes through the parallel sequence path; `first = last`
or no `first` knob is a single file; and every single-file copy is an
inline (non-pooled) job with destination `footage/basename(path)`. -/
theorem claim5_classification :
    ∀ (sig : Nat → Bool) (foot : List Char) (node : Node) (st : EngineState),
    node.hasFile = true → node.hasRender = false → node.file ≠ [] →
    ((extLower node.file ∈ video_exts →
      processNode sig foot node st =
        inlineCopy st node.file (joinL foot (basenameL node.file))) ∧
    (extLower node.file ∉ video_exts → node.hasFirst = true →
      node.first ≠ node.last →
      processNode sig foot node st =
        copy_sequence_parallel sig st node.file foot node.first node.last) ∧
    (extLower node.file ∉ video_exts →
      (node.hasFirst = false ∨ node.first = node.last) →
      processNode sig foot node st =
        inlineCopy st node.file (joinL foot (basenameL node.file))) ∧
    (∀ src dst, (inlineCopy st src dst).jobs = st.jobs ++
      [{ src := src, dst := dst, name := basenameL dst, pooled := false }])) := by
  intro sig foot node st h1 h2 h3
  refine ⟨?_, ?_, ?_, ?_⟩
  · intro hv; simp [processNode, h1, h2, h3, hv]
  · intro hv hf hne; simp [processNode, h1, h2, h3, hv, hf, hne]
  · intro hv hd
    rcases hd with hd | hd
    · simp [processNode, h1, h2, h3, hv, hd]
    · by_cases hf : node.hasFirst = true
      · simp [processNode, h1, h2, h3, hv, hf, hd]
      · simp [processNode, h1, h2, h3, hv, hf]
  · intro src dst; rfl

/-- **C5 witness**: the three classifications on concrete nodes. -/
theorem claim5_classification_witness :
    processNode (fun _ => false) "/out/footage".data wNodeA wStateEmpty =
      inlineCopy wStateEmpty wNodeA.file
        (joinL "/out/footage".data (basenameL wNodeA.file)) ∧
    processNode (fun _ => false) "/out/footage".data wNodeB wStateEmpty =
      copy_sequence_parallel (fun _ => false) wStateEmpty wNodeB.file
        "/out/footage".data wNodeB.first wNodeB.last ∧
    processNode (fun _ => false) "/out/footage".data wNodeC wStateEmpty =
      inlineCopy wStateEmpty wNodeC.file
        (joinL "/out/footage".data (basenameL wNodeC.file)) := by
  refine ⟨?_, ?_, ?_⟩
  · exact (claim5_classification (fun _ => false) "/out/footage".data wNodeA
      wStateEmpty rfl rfl (by decide)).1 (by decide)
  · exact (claim5_classification (fun _ => false) "/out/footage".data wNodeB
      wStateEmpty rfl rfl (by decide)).2.1 (by decide) rfl (by decide)
  · exact (claim5_classification (fun _ => false) "/out/footage".data wNodeC
      wStateEmpty rfl rfl (by decide)).2.2.1 (by decide) (Or.inl rfl)

/-- **C6**: frame substitution replaces the whole matched token span in a
single substitution (a hash run of any length collapses to exactly one
copy of the frame string, not one per character), and concretely the
template `plate.####.dpx` at frame 7 renders to `plate.0007.dpx`. -/
theorem claim6_whole_token_substitution :
    (∀ (rep a b : List Char) (k : Nat), '#' ∉ a → '#' ∉ b →
      subHashes rep (a ++ (List.replicate (k + 1) '#' ++ b)) =
        a ++ rep ++ b) ∧
    findPad "plate.####.dpx".data = some "####".data ∧
    renderName "####".data 7 "plate.####.dpx".data =
      "plate.0007.dpx".data := by
  refine ⟨?_, by decide, by decide⟩
  intro rep a b k ha hb
  induction a with
  | nil =>
    show subHashAux rep false (List.replicate (k + 1) '#' ++ b) = rep ++ b
    rw [List.replicate_succ, List.cons_append, subHashAux, if_pos rfl]
    simp only [Bool.false_eq_true, if_false]
    rw [subHashAux_run rep b hb k]
  | cons c a ih =>
    have hc : ¬c = '#' := fun h => ha (h ▸ List.mem_cons_self c a)
    have hih := ih (fun h => ha (List.mem_cons_of_mem _ h))
    show subHashAux rep false ((c :: a) ++ (List.replicate (k + 1) '#' ++ b)) =
      (c :: a) ++ rep ++ b
    rw [List.cons_append, subHashAux, if_neg hc]
    show c :: subHashAux rep false (a ++ (List.replicate (k + 1) '#' ++ b)) =
      c :: (a ++ rep ++ b)
    rw [show subHashAux rep false (a ++ (List.replicate (k + 1) '#' ++ b)) =
      a ++ rep ++ b from hih]

/-- **C6 witness**: whole-span substitution at the concrete example. -/
theorem claim6_whole_token_substitution_witness :
    subHashes "0007".data
      ("plate.".data ++ (List.replicate 4 '#' ++ ".dpx".data)) =
      "plate.".data ++ "0007".data ++ ".dpx".data :=
  claim6_whole_token_substitution.1 "0007".data "plate.".data ".dpx".data 3
    (by decide) (by decide)

/-- **C7 counterexample**: the claim "every parsed width is ≥ 1" fails on
the template `x.%0d.exr`: the search finds the token `%0d` and the parsed
width is `int("0") = 0`. -/
theorem claim7_counterexample :
    findPad "x.%0d.exr".data = some "%0d".data ∧
    padLenOf "%0d".data = 0 ∧ ¬(1 ≤ padLenOf "%0d".data) := by
  refine ⟨by decide, by decide, by decide⟩

/-- **C7 amended**: every successfully parsed padding width is ≥ 1 except
for printf tokens whose explicit digit run has numeric value zero (such as
`%0d` or `%00d`), where the parsed width is 0. -/
theorem claim7_width_amended :
    ∀ (l tok : List Char), findPad l = some tok →
    1 ≤ padLenOf tok ∨
    (∃ ds, tok = '%' :: (ds ++ ['d']) ∧ ds ≠ [] ∧ digitsToNat ds = 0 ∧
      padLenOf tok = 0) := by
  intro l tok h
  rcases findPad_split l tok h with ⟨a, ds, b, _, hds, htok⟩ |
    ⟨a, k, b, _, htok⟩
  · have hp := padLenOf_percent ds hds
    cases hds0 : ds with
    | nil =>
      left
      rw [htok, hp, if_pos hds0]
    | cons d ds' =>
      by_cases hz : digitsToNat ds = 0
      · right
        refine ⟨ds, htok, by rw [hds0]; simp, hz, ?_⟩
        rw [htok, hp, if_neg (by rw [hds0]; simp), hz]
      · left
        rw [htok, hp, if_neg (by rw [hds0]; simp)]
        omega
  · left
    rw [htok, padLenOf_hash]
    omega

/-- **C7 amended witness**: at `a.%03d.e` the disjunction is produced. -/
theorem claim7_width_amended_witness :
    1 ≤ padLenOf "%03d".data ∨
    (∃ ds, "%03d".data = '%' :: (ds ++ ['d']) ∧ ds ≠ [] ∧
      digitsToNat ds = 0 ∧ padLenOf "%03d".data = 0) :=
  claim7_width_amended "a.%03d.e".data "%03d".data (by decide)

/-- **C8**: the path-rewriting post-pass runs exactly when the run's
cancelled flag is false: a cancelled run leaves every node's `file` value
unchanged (and does not save the script), a non-cancelled run rewrites
every `file`-bearing non-`Render` node. -/
theorem claim8_rewrite_iff_not_cancelled :
    ∀ (sig : Nat → Bool) (target : List Char) (nodes : List Node),
    ((collect sig target nodes).finalState.cancelled = true →
      (collect sig target nodes).nodesAfter = nodes ∧
      (collect sig target nodes).scriptSaved = false) ∧
    ((collect sig target nodes).finalState.cancelled = false →
      (collect sig target nodes).nodesAfter = nodes.map (fun n =>
        if n.hasFile ∧ ¬n.hasRender then update_node_path n else n) ∧
      (collect sig target nodes).scriptSaved = true) := by
  intro sig target nodes
  exact ⟨collect_nodesAfter_of_cancelled sig target nodes,
    collect_nodesAfter_of_not_cancelled sig target nodes⟩

/-- **C8 witness**: a cancelled concrete run leaves the nodes unchanged; an
uncancelled concrete run rewrites them. -/
theorem claim8_rewrite_iff_not_cancelled_witness :
    (collect (fun _ => true) wTarget [wNodeA, wNodeB]).nodesAfter =
      [wNodeA, wNodeB] ∧
    (collect (fun _ => true) wTarget [wNodeA, wNodeB]).scriptSaved = false ∧
    (collect (fun _ => false) wTarget [wNodeA, wNodeB]).nodesAfter =
      [wNodeA, wNodeB].map (fun n =>
        if n.hasFile ∧ ¬n.hasRender then update_node_path n else n) ∧
    (collect (fun _ => false) wTarget [wNodeA, wNodeB]).scriptSaved = true := by
  have h1 := (claim8_rewrite_iff_not_cancelled (fun _ => true) wTarget
    [wNodeA, wNodeB]).1 (by decide)
  have h2 := (claim8_rewrite_iff_not_cancelled (fun _ => false) wTarget
    [wNodeA, wNodeB]).2 (by decide)
  exact ⟨h1.1, h1.2, h2.1, h2.2⟩

/-- **C9**: when the sequence template has no recognizable padding token,
the expansion emits zero copy jobs, yet the destination directory
`outputRoot/<sourceParentDirName>` has already been created by the
`os.makedirs` call made before the token check: the classification
failure leaves the freshly created directory behind. -/
theorem claim9_dir_created_without_token :
    ∀ (sig : Nat → Bool) (st : EngineState) (fp out : List Char) (a b : Int),
    findPad (basenameL fp) = none →
    copy_sequence_parallel sig st fp out a b =
      { st with dirs := st.dirs ++ [joinL out (basenameL (dirnameL fp))] } := by
  intro sig st fp out a b h
  simp only [copy_sequence_parallel, h]

/-- **C9 witness**: a templated-looking but token-free path creates the
directory and contributes no jobs. -/
theorem claim9_dir_created_without_token_witness :
    copy_sequence_parallel (fun _ => false) wStateEmpty
      "/sh/p/plate.dpx".data "/out/footage".data 1 3 =
    { wStateEmpty with dirs := wStateEmpty.dirs ++
        [joinL "/out/footage".data (basenameL (dirnameL "/sh/p/plate.dpx".data))] } :=
  claim9_dir_created_without_token (fun _ => false) wStateEmpty
    "/sh/p/plate.dpx".data "/out/footage".data 1 3 (by decide)

/-- **C10**: in a non-cancelled run the post-pass rewrites every node that
has a `file` knob and no `Render` knob, independently of the per-file
outcomes: the rewritten node list is the same whatever filesystem the
copies ran against (in particular when every copy was `SourceMissing` or
`Failed`). -/
theorem claim10_rewrite_regardless_of_outcomes :
    ∀ (fs fs' : FS) (sig : Nat → Bool) (target : List Char)
      (nodes : List Node),
    (collect sig target nodes).finalState.cancelled = false →
    (collectRun fs sig target nodes).1.nodesAfter = nodes.map (fun n =>
      if n.hasFile ∧ ¬n.hasRender then update_node_path n else n) ∧
    (collectRun fs sig target nodes).1 = (collectRun fs' sig target nodes).1 := by
  intro fs fs' sig target nodes h
  exact ⟨(collect_nodesAfter_of_not_cancelled sig target nodes h).1, rfl⟩

/-- **C10 witness**: with every source missing, the nodes are still
rewritten exactly as with every copy succeeding. -/
theorem claim10_rewrite_regardless_of_outcomes_witness :
    (collectRun fsAllMissing (fun _ => false) wTarget [wNodeA, wNodeC]).1.nodesAfter =
      [wNodeA, wNodeC].map (fun n =>
        if n.hasFile ∧ ¬n.hasRender then update_node_path n else n) ∧
    (collectRun fsAllMissing (fun _ => false) wTarget [wNodeA, wNodeC]).1 =
      (collectRun fsAllOk (fun _ => false) wTarget [wNodeA, wNodeC]).1 :=
  claim10_rewrite_regardless_of_outcomes fsAllMissing fsAllOk (fun _ => false)
    wTarget [wNodeA, wNodeC] (by decide)

/-- **C1**: cancellation semantics of the collect loop.  (i) If the signal
is false at every poll made while collecting the first `K` references and
true at the poll made when reference `K` begins, then references
`0..K-1` are fully collected (the dispatched jobs are exactly those of the
uncancelled run of the first `K` references, whose own run is not
cancelled), reference `K` and all later references contribute zero jobs,
and the run's cancelled flag is true.  (ii)/(iii) With a monotone
(never-cleared) signal, from any point at which cancellation has been
observed (`sig p` true for some `p` at or before the current poll count),
neither the node loop nor the in-batch submission loop ever starts another
copy job.  (iv) Under a never-set signal a batch submits every task —
already-dispatched jobs are never discarded. -/
theorem claim1_cancellation :
    (∀ (target : List Char) (nodes : List Node) (K : Nat) (sig : Nat → Bool),
      K < nodes.length →
      (∀ n, n < (uncancelledRun target (nodes.take K)).polls →
        sig n = false) →
      sig (uncancelledRun target (nodes.take K)).polls = true →
      (uncancelledRun target (nodes.take K)).cancelled = false ∧
      (collect sig target nodes).finalState =
        { uncancelledRun target (nodes.take K) with
          polls := (uncancelledRun target (nodes.take K)).polls + 1,
          cancelled := true } ∧
      (collect sig target nodes).finalState.cancelled = true ∧
      (collect sig target nodes).finalState.jobs =
        (uncancelledRun target (nodes.take K)).jobs) ∧
    (∀ (sig : Nat → Bool) (foot : List Char) (l : List Node)
      (st : EngineState),
      (∀ m n, m ≤ n → sig m = true → sig n = true) →
      ∀ p, p ≤ st.polls → sig p = true →
      (processNodes sig foot l st).jobs = st.jobs) ∧
    (∀ (sig : Nat → Bool) (tasks : List CopyJob) (st : EngineState),
      (∀ m n, m ≤ n → sig m = true → sig n = true) →
      ∀ p, p ≤ st.polls → sig p = true →
      (submitLoop sig tasks st).jobs = st.jobs) ∧
    (∀ (tasks : List CopyJob) (st : EngineState),
      submitLoop (fun _ => false) tasks st =
        { st with
          polls := st.polls + tasks.length,
          jobs := st.jobs ++ tasks }) := by
  refine ⟨?_, ?_, ?_, submitLoop_false⟩
  · intro target nodes K sig hK hlow hhit
    have hcan : (uncancelledRun target (nodes.take K)).cancelled = false :=
      processNodes_false_cancelled (footageOf target) (nodes.take K)
        (initState target)
    have hloc : processNodes sig (footageOf target) (nodes.take K)
        (initState target) = uncancelledRun target (nodes.take K) := by
      apply processNodes_locB sig (footageOf target) (nodes.take K)
        (initState target) (uncancelledRun target (nodes.take K)).polls
        (Nat.le_refl _)
      intro n _ hn
      exact hlow n hn
    have happ : processNodes sig (footageOf target)
        (nodes.take K ++ nodes.drop K) (initState target) =
        processNodes sig (footageOf target) (nodes.drop K)
          (processNodes sig (footageOf target) (nodes.take K)
            (initState target)) := by
      apply processNodes_appendB sig (footageOf target) (nodes.take K)
        (nodes.drop K) (initState target)
        (uncancelledRun target (nodes.take K)).polls
      · exact le_of_eq (congrArg EngineState.polls hloc)
      · intro n _ hn
        exact hlow n hn
    rw [List.take_append_drop, hloc] at happ
    have hdropK : nodes.drop K = nodes[K] :: nodes.drop (K + 1) :=
      List.drop_eq_getElem_cons hK
    rw [hdropK, processNodes_break sig (footageOf target) _ _ _ hhit] at happ
    have hfs : (collect sig target nodes).finalState =
        { uncancelledRun target (nodes.take K) with
          polls := (uncancelledRun target (nodes.take K)).polls + 1,
          cancelled := true } := by
      rw [collect_finalState, happ]
    exact ⟨hcan, hfs, by rw [hfs], by rw [hfs]⟩
  · intro sig foot l st hmono p hp hsig
    exact processNodes_jobs_of_sig_true sig foot l st (hmono p st.polls hp hsig)
  · intro sig tasks st hmono p hp hsig
    exact submitLoop_jobs_of_sig_true sig tasks st (hmono p st.polls hp hsig)

/-- **C1 witness**: with the signal set from poll 1 onward, a two-node run
collects node 0 fully, is cancelled at node 1, and dispatches no further
jobs; with cancellation already observed, the loop and the batch submitter
start nothing; with the signal never set, a batch submits all its tasks. -/
theorem claim1_cancellation_witness :
    (uncancelledRun wTarget ([wNodeA, wNodeB].take 1)).cancelled = false ∧
    (collect wSigAt1 wTarget [wNodeA, wNodeB]).finalState.cancelled = true ∧
    (collect wSigAt1 wTarget [wNodeA, wNodeB]).finalState.jobs =
      (uncancelledRun wTarget ([wNodeA, wNodeB].take 1)).jobs ∧
    (processNodes wSigAt1 (footageOf wTarget) [wNodeB]
      { polls := 3, cancelled := true, jobs := [], dirs := [] }).jobs = [] ∧
    (submitLoop wSigAt1
      (seqTasks wNodeB.file (footageOf wTarget) "####".data 1 3)
      { polls := 3, cancelled := true, jobs := [], dirs := [] }).jobs = [] ∧
    submitLoop (fun _ => false)
      (seqTasks wNodeB.file (footageOf wTarget) "####".data 1 3) wStateEmpty =
      { wStateEmpty with
        polls := wStateEmpty.polls +
          (seqTasks wNodeB.file (footageOf wTarget) "####".data 1 3).length,
        jobs := wStateEmpty.jobs ++
          seqTasks wNodeB.file (footageOf wTarget) "####".data 1 3 } := by
  have h := claim1_cancellation
  have hP : (uncancelledRun wTarget ([wNodeA, wNodeB].take 1)).polls = 1 := by
    decide
  have hmono : ∀ m n, m ≤ n → wSigAt1 m = true → wSigAt1 n = true := by
    intro m n hmn hm
    simp only [wSigAt1, decide_eq_true_eq] at hm ⊢
    omega
  have h1 := h.1 wTarget [wNodeA, wNodeB] 1 wSigAt1 (by decide)
    (by intro n hn; rw [hP] at hn; interval_cases n; decide)
    (by rw [hP]; decide)
  refine ⟨h1.1, h1.2.2.1, h1.2.2.2, ?_, ?_, ?_⟩
  · exact h.2.1 wSigAt1 (footageOf wTarget) [wNodeB]
      { polls := 3, cancelled := true, jobs := [], dirs := [] } hmono 2
      (by decide) (by decide)
  · exact h.2.2.1 wSigAt1
      (seqTasks wNodeB.file (footageOf wTarget) "####".data 1 3)
      { polls := 3, cancelled := true, jobs := [], dirs := [] } hmono 2
      (by decide) (by decide)
  · exact h.2.2.2
      (seqTasks wNodeB.file (footageOf wTarget) "####".data 1 3) wStateEmpty

/-- **C3**: for a template whose basename parses to a padding token and any
`first ≤ last`, the expansion builds exactly `last - first + 1` tasks, in
increasing frame order (the j-th task renders frame `first + j`), each
task's rendered filename obtained by substituting the zero-padded frame
string, and all rendered filenames are pairwise distinct. -/
theorem claim3_sequence_expansion :
    ∀ (fp out tok : List Char) (first last : Int),
    findPad (basenameL fp) = some tok → first ≤ last →
    (seqTasks fp out tok first last).length = (last - first).toNat + 1 ∧
    seqTasks fp out tok first last =
      (List.range ((last - first).toNat + 1)).map (fun (j : Nat) =>
        let name := renderName tok (first + (j : Int)) (basenameL fp)
        { src := joinL (dirnameL fp) name,
          dst := joinL (joinL out (basenameL (dirnameL fp))) name,
          name := name, pooled := true }) ∧
    ((seqTasks fp out tok first last).map (fun t => t.name)).Pairwise
      (fun x y => x ≠ y) := by
  intro fp out tok first last hf hle
  have hn : (last + 1 - first).toNat = (last - first).toNat + 1 := by omega
  have hrep : seqTasks fp out tok first last =
      (List.range ((last - first).toNat + 1)).map (fun (j : Nat) =>
        let name := renderName tok (first + (j : Int)) (basenameL fp)
        { src := joinL (dirnameL fp) name,
          dst := joinL (joinL out (basenameL (dirnameL fp))) name,
          name := name, pooled := true }) := by
    simp only [seqTasks, intRange, hn, List.map_map]
    rfl
  refine ⟨?_, hrep, ?_⟩
  · rw [hrep, List.length_map, List.length_range]
  · rw [hrep, List.map_map, List.pairwise_map]
    refine (List.pairwise_lt_range _).imp ?_
    intro i j hij heq
    have heq' : renderName tok (first + (i : Int)) (basenameL fp) =
        renderName tok (first + (j : Int)) (basenameL fp) := heq
    have := renderName_inj (basenameL fp) tok hf
      (first + (i : Int)) (first + (j : Int)) heq'
    omega

/-- **C3 witness**: the three-frame hash sequence expands to three tasks
with pairwise distinct rendered filenames. -/
theorem claim3_sequence_expansion_witness :
    (seqTasks "/sh/p/plate.####.dpx".data "/out/footage".data "####".data
      1 3).length = ((3 : Int) - 1).toNat + 1 ∧
    ((seqTasks "/sh/p/plate.####.dpx".data "/out/footage".data "####".data
      1 3).map (fun t => t.name)).Pairwise (fun x y => x ≠ y) := by
  have h := claim3_sequence_expansion "/sh/p/plate.####.dpx".data
    "/out/footage".data "####".data 1 3 (by decide) (by decide)
  exact ⟨h.1, h.2.2⟩
